import Mathlib

/-!
Verification development for the dual marching cubes surface extractor
(`src/tessellation/dual_marching_cubes.rs`).

Machine floats (`f64`) are modelled as real numbers; `usize` as `ℕ`, with
subtraction that can underflow modelled as an `Option` (an underflow panics
in a debug build and produces a wrapped, necessarily-invalid index in a
release build, so `none` stands for the abnormal outcome in both cases).
External collaborators that are not part of this file's source — the
implicit object's `approx_value` and `normal`, the QEF solver, and the cell
configuration table — are parameters of the corresponding definitions.
-/

/-- A 3-d point/vector of reals (models `Point`/`Vector` of `f64`). -/
abbrev Pt := Fin 3 → ℝ

/-- Grid index, `pub type Index = [usize; 3]`. -/
abbrev Idx := Fin 3 → ℕ

/-- Modelled from the spec: `Plane = { p: Point, n: UnitVector }`, a
zero-crossing point and the surface normal there (the `Plane` type is
imported from the crate root and is not under `src/`). -/
structure Plane where
  p : Pt
  n : Pt

/-- Modelled from the spec: the output `Mesh` is an ordered list of vertex
positions plus an ordered list of triangles (triples of vertex ids); the
`Mesh` type is imported from the crate root and is not under `src/`. -/
structure Mesh where
  vertices : List Pt
  faces : List (ℕ × ℕ × ℕ)

/-- `fn offset(idx: Index, offset: Index) -> Index` — componentwise sum. -/
def offsetIdx (idx off : Idx) : Idx := fun i => idx i + off i

/-- `fn neg_offset(idx: Index, offset: Index) -> Index` — componentwise
`usize` subtraction.  `none` models the underflowing case (panic in debug
builds, wrap-around to an invalid index in release builds). -/
def negOffset (idx off : Idx) : Option Idx :=
  if ∀ i : Fin 3, off i ≤ idx i then some (fun i => idx i - off i) else none

/-- The twelve cell edges, `enum Edge { A..L }`. -/
inductive Edge where
  | A | B | C | D | E | F | G | H | I | J | K | L
deriving DecidableEq

/-- `Edge as usize`. -/
def Edge.toNat : Edge → ℕ
  | .A => 0 | .B => 1 | .C => 2 | .D => 3 | .E => 4 | .F => 5
  | .G => 6 | .H => 7 | .I => 8 | .J => 9 | .K => 10 | .L => 11

/-- `Edge::from_usize`; `none` models the `panic!` on arguments ≥ 12. -/
def Edge.fromUsize : ℕ → Option Edge
  | 0 => some .A | 1 => some .B | 2 => some .C | 3 => some .D
  | 4 => some .E | 5 => some .F | 6 => some .G | 7 => some .H
  | 8 => some .I | 9 => some .J | 10 => some .K | 11 => some .L
  | _ => none

/-- `Edge::base`, i.e. `from_usize(self as usize % 3)` spelled out per
constructor. -/
def Edge.base : Edge → Edge
  | .A => .A | .B => .B | .C => .C | .D => .A | .E => .B | .F => .C
  | .G => .A | .H => .B | .I => .C | .J => .A | .K => .B | .L => .C

/-- `EDGE_OFFSET: [Index; 12]` — cell offsets of edges. -/
def EDGE_OFFSET : Edge → Idx
  | .A => ![0, 0, 0] | .B => ![0, 0, 0] | .C => ![0, 0, 0]
  | .D => ![0, 1, 0] | .E => ![1, 0, 0] | .F => ![1, 0, 0]
  | .G => ![0, 0, 1] | .H => ![0, 0, 1] | .I => ![0, 1, 0]
  | .J => ![0, 1, 1] | .K => ![1, 0, 1] | .L => ![1, 1, 0]

/-- `QUADS: [[Edge; 4]; 3]` — quad definition for the base edges `A,B,C`.
The source indexes `QUADS[edge as usize]`, which is out of range for any
other edge; `none` models that panic. -/
def QUADS : Edge → Option (List Edge)
  | .A => some [.A, .G, .J, .D]
  | .B => some [.B, .E, .K, .H]
  | .C => some [.C, .I, .L, .F]
  | _ => none

/-- The unit index vector of a base edge: `adjacent_idx[edge as usize] += 1`
adds this to the index (only ever used for `edge ∈ {A,B,C}`). -/
def baseUnit (e : Edge) : Idx := fun i => if (i : ℕ) = e.toNat then 1 else 0

/-- World position of a grid index:
`origin + res * Vector::new(idx[0] as Float, idx[1] as Float, idx[2] as Float)`. -/
noncomputable def posOf (origin : Pt) (res : ℝ) (I : Idx) : Pt :=
  fun i => origin i + res * (I i : ℝ)

/-- `f64::signum` restricted to the values that arise here (reals; `0.0`
behaves as positive zero, whose `signum` is `1.0`). -/
noncomputable def signum (x : ℝ) : ℝ := if x < 0 then -1 else 1

/-- `cgmath`'s `Array::min` on a 3-vector: the least component. -/
noncomputable def vecMin (v : Pt) : ℝ := min (min (v 0) (v 1)) (v 2)

/-- `cgmath`'s `Array::max` on a 3-vector: the greatest component. -/
noncomputable def vecMax (v : Pt) : ℝ := max (max (v 0) (v 1)) (v 2)

/-- The distance measure of `find_zero`:
`(a - b).min().abs().max((a - b).max())`, applied to `v = a - b`. -/
noncomputable def codeDist (v : Pt) : ℝ := max |vecMin v| (vecMax v)

/-- `const PRECISION: Float = 0.05`. -/
noncomputable def PRECISION : ℝ := 0.05

/-- The linear interpolation point of `find_zero`:
`let n = a + (b - a) * (av.abs() / (bv - av).abs());`. -/
noncomputable def interpPoint (a b : Pt) (av bv : ℝ) : Pt :=
  fun i => a i + (b i - a i) * (|av| / |bv - av|)

/-- `fn find_zero(&self, a: Point, av: Float, b: Point, bv: Float) -> Option<Plane>`,
with explicit recursion fuel (the source recursion has no structural bound;
the theorems below settle when some fuel suffices).  `sampler` models
`self.object.approx_value(·, self.res)` and `normalF` models
`self.object.normal`.  The `a = b` guard models the `assert!(a != b)`
panic. -/
noncomputable def findZero (sampler : Pt → ℝ) (normalF : Pt → Pt) (res : ℝ) :
    ℕ → Pt → ℝ → Pt → ℝ → Option Plane
  | 0, _, _, _, _ => none
  | Nat.succ fuel, a, av, b, bv =>
    if a = b then none
    else if signum av = signum bv then none
    else if min (min (codeDist (a - b)) |av|) |bv| < PRECISION * res then
      some ⟨if |bv| < |av| then b else a, normalF (if |bv| < |av| then b else a)⟩
    else if signum av ≠ signum (sampler (interpPoint a b av bv)) then
      findZero sampler normalF res fuel a av (interpPoint a b av bv)
        (sampler (interpPoint a b av bv))
    else
      findZero sampler normalF res fuel (interpPoint a b av bv)
        (sampler (interpPoint a b av bv)) b bv

/-- The sparse value grid, `value_grid: HashMap<Index, Float>`. -/
abbrev Grid := Idx → Option ℝ

/-- `HashMap::insert` (overwriting). -/
def gridInsert (g : Grid) (k : Idx) (v : ℝ) : Grid :=
  fun j => if j = k then some v else g j

/-- One key of the edge-localization phase of `try_tesselate` (lines
301–325): for a stored index `I` and base edge `e`, look up the value at
the adjacent index, and if both exist run `find_zero` on the segment
between their world positions.  The resulting `edge_grid` entry at key
`(e, I)` is exactly this value. -/
noncomputable def edgeEntry (sampler : Pt → ℝ) (normalF : Pt → Pt)
    (origin : Pt) (res : ℝ) (vg : Grid) (fuel : ℕ) (e : Edge) (I : Idx) :
    Option Plane :=
  match vg I with
  | none => none
  | some v =>
    match vg (fun i => I i + baseUnit e i) with
    | none => none
    | some av =>
      findZero sampler normalF res fuel (posOf origin res I) v
        (fun i => if (i : ℕ) = e.toNat then posOf origin res I i + res
                  else posOf origin res I i) av

/-- `size as Float * self.res * 3_f64.sqrt()` — the pruning threshold of
`sample_value_grid` (`size` there is the already-halved size). -/
noncomputable def subCubeDiagonal (size : ℕ) (res : ℝ) : ℝ :=
  (size : ℝ) * res * Real.sqrt 3

/-- The eight sub-corner offsets of `sample_value_grid`, in iteration order
(`z` outer, `y` middle, `x` inner). -/
def svgCorners : List Idx :=
  [![0, 0, 0], ![1, 0, 0], ![0, 1, 0], ![1, 1, 0],
   ![0, 0, 1], ![1, 0, 1], ![0, 1, 1], ![1, 1, 1]]

/-- `fn sample_value_grid(&mut self, idx, pos, size, val) -> Option<DualContouringError>`,
threading the mutable `value_grid` explicitly and with structural recursion
fuel (the real recursion depth is bounded by `log₂ size`, so any
`fuel ≥ size` behaves as the source).  Returns the updated grid and
`some p` when the sampling hit an exact zero at `p` (`HitZero(p)`); on that
error the inserts already performed are kept, as in the source. -/
noncomputable def sampleValueGrid (sampler : Pt → ℝ) (res : ℝ) :
    ℕ → ℕ → Idx → Pt → ℝ → Grid → Grid × Option Pt
  | 0, _, _, _, _, g => (g, none)
  | Nat.succ fuel, size, idx, pos, val, g =>
    svgCorners.foldl
      (fun acc off =>
        match acc.2 with
        | some e => (acc.1, some e)
        | none =>
          let midx : Idx := fun i => idx i + size / 2 * off i
          let mpos : Pt := fun i => pos i + (off i : ℝ) * ((size / 2 : ℕ) : ℝ) * res
          let value := if midx = idx then val else sampler mpos
          if value = 0 then (acc.1, some mpos)
          else if 1 < size / 2 ∧ |value| ≤ subCubeDiagonal (size / 2) res then
            sampleValueGrid sampler res fuel (size / 2) midx mpos value acc.1
          else (gridInsert acc.1 midx value, none))
      (g, none)

/-- Euclidean distance on `Pt`, used to state the Lipschitz hypothesis of
the sampler's pruning bound. -/
noncomputable def euclDist (x y : Pt) : ℝ :=
  Real.sqrt (∑ i : Fin 3, (x i - y i) ^ 2)

/-- The read-only context of the quad-emission phase: `origin`, `res`, the
two populated grids, the cell configuration table (external input,
`get_dmc_cell_configs()`), and the QEF solver (external black box exposing
`solve`/`solution`). -/
structure QuadCtx where
  origin : Pt
  res : ℝ
  vg : Grid
  eg : Edge × Idx → Option Plane
  cellConfigs : List (List ℕ)
  qefSolve : List Plane → Pt

/-- The state mutated during the quad-emission phase: the mesh being built,
`vertex_map`, and the `qefs`/`clamps` counters. -/
structure QState where
  meshVertices : List Pt
  meshFaces : List (ℕ × ℕ × ℕ)
  vmap : ℕ × Idx → Option ℕ
  qefs : ℕ
  clamps : ℕ

/-- The cell corners of `bitset_for_cell`, as (bit, index offset) pairs in
iteration order; the bit is `z<<2 | y<<1 | x`, which equals the list
position. -/
def cellCorners : List (ℕ × Idx) := svgCorners.enum

/-- `fn bitset_for_cell(&self, idx: Index) -> BitSet`: bit `z<<2|y<<1|x` is
set iff the value stored for that corner is strictly negative; missing
values leave the bit unset.  A `BitSet` is modelled as the natural number
with those bits (its `as_usize`). -/
noncomputable def bitsetForCell (vg : Grid) (idx : Idx) : ℕ :=
  cellCorners.foldl
    (fun acc c =>
      match vg (offsetIdx idx c.2) with
      | some v => if v < 0 then Nat.lor acc (2 ^ c.1) else acc
      | none => acc) 0

/-- `fn get_connected_edges(&self, edge: Edge, cell: BitSet) -> BitSet`:
the first edge set of `cell_configs[cell]` containing `edge`; `none` models
the `panic!` when the table row is missing or no set contains the edge. -/
def getConnectedEdges (cellConfigs : List (List ℕ)) (edge : Edge) (cell : ℕ) :
    Option ℕ :=
  match cellConfigs.get? cell with
  | none => none
  | some sets => sets.find? (fun s => Nat.testBit s edge.toNat)

/-- `fn get_edge_tangent_plane(&self, edge: Edge, cell_idx: Index) -> Plane`:
looks up `edge_grid` at `(edge.base(), cell_idx + EDGE_OFFSET[edge])`;
`none` models the `panic!` when the plane is absent. -/
def getEdgeTangentPlane (eg : Edge × Idx → Option Plane) (edge : Edge)
    (cellIdx : Idx) : Option Plane :=
  eg (edge.base, offsetIdx cellIdx (EDGE_OFFSET edge))

/-- Modelled from the spec: `BitSet::into_iter` yields the set bits of the
12-bit edge set in ascending order (the `BitSet` type is imported from the
crate root and is not under `src/`). -/
def bitsList (s : ℕ) : List ℕ := (List.range 12).filter (fun b => Nat.testBit s b)

/-- `fn is_in_cell(&self, idx: &Index, p: &Point) -> bool`: every component
of `p - origin - idx·res` is strictly between `0` and `res`. -/
def isInCell (origin : Pt) (res : ℝ) (idx : Idx) (p : Pt) : Prop :=
  ∀ i : Fin 3, 0 < p i - origin i - (idx i : ℝ) * res ∧
    p i - origin i - (idx i : ℝ) * res < res

open Classical in
/-- `fn compute_cell_point(&self, edge_set: BitSet, idx: Index) -> Point`:
collect the tangent planes of the edges in `edge_set`, solve the QEF, keep
the solution if it lies in the cell (counting a qef success), otherwise
fall back to the mean of the planes' `p` points (counting a clamp).
Returns `none` when a tangent-plane lookup panics. -/
noncomputable def computeCellPoint (ctx : QuadCtx) (st : QState)
    (edgeSet : ℕ) (idx : Idx) : Option (Pt × QState) :=
  match (bitsList edgeSet).mapM
      (fun b => (Edge.fromUsize b).bind fun e => getEdgeTangentPlane ctx.eg e idx) with
  | none => none
  | some planes =>
    if isInCell ctx.origin ctx.res idx (ctx.qefSolve planes) then
      some (ctx.qefSolve planes, { st with qefs := st.qefs + 1 })
    else
      some ((fun i => planes.foldl (fun s pl => s + pl.p i) 0 / (planes.length : ℝ)),
        { st with clamps := st.clamps + 1 })

/-- `fn lookup_cell_point(&self, edge: Edge, idx: Index) -> usize`: resolve
the cell's edge set, return the memoized id if `(edge_set, idx)` is in
`vertex_map`, otherwise compute the cell point and push it onto the mesh's
vertex list, returning its index.  Note that, exactly as in the source, the
freshly computed id is **not** recorded in `vertex_map`. -/
noncomputable def lookupCellPoint (ctx : QuadCtx) (st : QState) (edge : Edge)
    (idx : Idx) : Option (ℕ × QState) :=
  match getConnectedEdges ctx.cellConfigs edge (bitsetForCell ctx.vg idx) with
  | none => none
  | some edgeSet =>
    match st.vmap (edgeSet, idx) with
    | some i => some (i, st)
    | none =>
      match computeCellPoint ctx st edgeSet idx with
      | none => none
      | some (pt, st1) =>
        some (st1.meshVertices.length,
          { st1 with meshVertices := st1.meshVertices ++ [pt] })

open Classical in
/-- The tail of `compute_quad` (lines 452–459): reverse the four collected
point ids when `value_grid[idx]` is negative, then append the two
triangles `(p0,p1,p2)` and `(p2,p3,p0)`.  `none` models the out-of-bounds
panic when the list does not have exactly four entries. -/
noncomputable def emitFaces (v : Option ℝ) (p : List ℕ)
    (faces : List (ℕ × ℕ × ℕ)) : Option (List (ℕ × ℕ × ℕ)) :=
  match (match v with
         | some v0 => if v0 < 0 then p.reverse else p
         | none => p) with
  | [p0, p1, p2, p3] => some (faces ++ [(p0, p1, p2), (p2, p3, p0)])
  | _ => none

/-- `fn compute_quad(&self, edge: Edge, idx: Index)`: look up the four cell
points of `QUADS[edge]` at `idx - EDGE_OFFSET[quad_edge]` and emit the two
triangles of the quad.  `none` models any of the panics on the way (base
edge out of range, index underflow, missing edge set, missing tangent
plane). -/
noncomputable def computeQuad (ctx : QuadCtx) (st : QState) (edge : Edge)
    (idx : Idx) : Option QState :=
  match QUADS edge with
  | none => none
  | some quadEdges =>
    match quadEdges.foldlM
        (fun acc qe =>
          match negOffset idx (EDGE_OFFSET qe) with
          | none => none
          | some cell =>
            match lookupCellPoint ctx acc.2 qe cell with
            | none => none
            | some (pid, st') => some (acc.1 ++ [pid], st'))
        (([] : List ℕ), st) with
    | none => none
    | some (p, st1) =>
      match emitFaces (ctx.vg idx) p st1.meshFaces with
      | none => none
      | some faces => some { st1 with meshFaces := faces }

/-- The extractor state owned by `DualMarchingCubes` (the boxed object and
the immutable `cell_configs` table are external and omitted). -/
structure DmcState where
  origin : Pt
  dim : Fin 3 → ℕ
  meshVertices : List Pt
  meshFaces : List (ℕ × ℕ × ℕ)
  vmap : ℕ × Idx → Option ℕ
  res : ℝ
  valueGrid : Grid
  edgeGrid : Edge × Idx → Option Plane
  qefs : ℕ
  clamps : ℕ

/-- The error arm of `tesselate` (lines 217–226): on `HitZero`, compute
`padding = res / (10.0 + u.abs())` from the drawn random `u`, move
`origin.x` down by it, clear `value_grid` and the mesh's vertex and face
lists, and zero the counters.  All other fields — in particular `edge_grid`
and `vertex_map` — are left untouched, exactly as in the source. -/
noncomputable def retryReset (s : DmcState) (u : ℝ) : DmcState :=
  { s with
    origin := Function.update s.origin 0 (s.origin 0 - s.res / (10 + |u|)),
    valueGrid := fun _ => none,
    meshVertices := [],
    meshFaces := [],
    qefs := 0,
    clamps := 0 }

/-- Concrete sampler used by witnesses: the affine field `p ↦ p 0 - 1/2`. -/
noncomputable def wSampler : Pt → ℝ := fun p => p 0 - 1 / 2

/-- Concrete normal function used by witnesses. -/
def wNormal : Pt → Pt := fun _ => ![1, 0, 0]

/-- Concrete endpoint `(0,0,0)` used by witnesses. -/
def wA : Pt := fun _ => 0

/-- Concrete endpoint `(1,0,0)` used by witnesses. -/
noncomputable def wB : Pt := fun i => if i = 0 then 1 else 0

/-- Concrete index `(0,0,0)` used by witnesses. -/
def wI0 : Idx := fun _ => 0

/-- Concrete index `(1,0,0)` used by witnesses. -/
def wI1 : Idx := fun i => if i = 0 then 1 else 0

/-- Concrete two-entry value grid used by witnesses. -/
noncomputable def wVg : Grid :=
  fun J => if J = wI0 then some (-5) else if J = wI1 then some 5 else none

/-- Concrete affine sampler consistent with `wVg` at resolution 1 and
origin `wA`. -/
noncomputable def wSampler2 : Pt → ℝ := fun p => 10 * p 0 - 5

/-- Concrete plane used by witnesses. -/
def wPlane : Plane := ⟨wA, wNormal wA⟩

/-- Concrete extractor state with a nonempty `edge_grid` and `vertex_map`,
used to exhibit what the retry arm does and does not clear. -/
noncomputable def wDmc : DmcState :=
  { origin := wA
    dim := fun _ => 4
    meshVertices := [wA]
    meshFaces := [(0, 0, 0)]
    vmap := fun k => if k = (7, wI0) then some 0 else none
    res := 1
    valueGrid := wVg
    edgeGrid := fun k => if k = (Edge.A, wI0) then some wPlane else none
    qefs := 3
    clamps := 4 }

/-- Concrete point `(1/2,1/2,1/2)` used by witnesses. -/
noncomputable def wHalf : Pt := fun _ => 1 / 2

/-- Concrete quad-phase context used by witnesses: origin `0`, resolution 1,
value grid `wVg`, a tangent plane stored for every base edge of cell
`(0,0,0)`, the configuration table `[[], [{A,B,C}]]`, and a QEF solver that
always answers `(1/2,1/2,1/2)`. -/
noncomputable def wCtx : QuadCtx :=
  { origin := wA
    res := 1
    vg := wVg
    eg := fun k => if k.2 = wI0 then some wPlane else none
    cellConfigs := [[], [7]]
    qefSolve := fun _ => wHalf }

/-- The empty quad-phase state. -/
def wSt0 : QState :=
  { meshVertices := [], meshFaces := [], vmap := fun _ => none,
    qefs := 0, clamps := 0 }

/-- The quad-phase state after one cell-point lookup in `wCtx`. -/
noncomputable def wSt1 : QState :=
  { meshVertices := [wHalf], meshFaces := [], vmap := fun _ => none,
    qefs := 1, clamps := 0 }

/-- The quad-phase state after two identical cell-point lookups in `wCtx`. -/
noncomputable def wSt2 : QState :=
  { meshVertices := [wHalf, wHalf], meshFaces := [], vmap := fun _ => none,
    qefs := 2, clamps := 0 }

/-- Winding reversal of an oriented triangle. -/
def revTri (t : ℕ × ℕ × ℕ) : ℕ × ℕ × ℕ := (t.2.2, t.2.1, t.1)

/-- Cyclic rotation of an oriented triangle. -/
def rotTri (t : ℕ × ℕ × ℕ) : ℕ × ℕ × ℕ := (t.2.1, t.2.2, t.1)

/-- Equality of oriented triangles up to cyclic rotation. -/
def sameTri (t u : ℕ × ℕ × ℕ) : Prop :=
  u = t ∨ u = rotTri t ∨ u = rotTri (rotTri t)

instance sameTriDecidable (t u : ℕ × ℕ × ℕ) : Decidable (sameTri t u) := by
  unfold sameTri
  infer_instance

lemma signum_ne_cases {x y : ℝ} (h : signum x ≠ signum y) :
    (x < 0 ∧ 0 ≤ y) ∨ (y < 0 ∧ 0 ≤ x) := by
  unfold signum at h
  split_ifs at h with hx hy hy
  · exact absurd rfl h
  · exact Or.inl ⟨hx, le_of_not_lt hy⟩
  · exact Or.inr ⟨hy, le_of_not_lt hx⟩
  · exact absurd rfl h

lemma signum_ne_of_neg_nonneg {x y : ℝ} (hx : x < 0) (hy : 0 ≤ y) :
    signum x ≠ signum y := by
  unfold signum
  rw [if_pos hx, if_neg (not_lt.mpr hy)]
  norm_num

lemma signum_ne_iff_mul_neg {x y : ℝ} (hx : x ≠ 0) (hy : y ≠ 0) :
    signum x ≠ signum y ↔ x * y < 0 := by
  constructor
  · intro h
    rcases signum_ne_cases h with ⟨h1, h2⟩ | ⟨h1, h2⟩
    · exact mul_neg_of_neg_of_pos h1 (lt_of_le_of_ne h2 (Ne.symm hy))
    · exact mul_neg_of_pos_of_neg (lt_of_le_of_ne h2 (Ne.symm hx)) h1
  · intro h
    rcases mul_neg_iff.mp h with ⟨h1, h2⟩ | ⟨h1, h2⟩
    · exact (signum_ne_of_neg_nonneg h2 h1.le).symm
    · exact signum_ne_of_neg_nonneg h1 h2.le

lemma abs_sub_of_signum_ne {av bv : ℝ} (h : signum av ≠ signum bv) :
    |bv - av| = |av| + |bv| := by
  rcases signum_ne_cases h with ⟨h1, h2⟩ | ⟨h1, h2⟩
  · rw [abs_of_nonneg (by linarith : (0:ℝ) ≤ bv - av), abs_of_neg h1,
      abs_of_nonneg h2]
    ring
  · rw [abs_of_nonpos (by linarith : bv - av ≤ 0), abs_of_nonneg h2,
      abs_of_neg h1]
    ring

lemma codeDist_eq (v : Pt) : codeDist v = max |v 0| (max |v 1| |v 2|) := by
  unfold codeDist vecMin vecMax
  have h0 : |v 0| ≤ max |v 0| (max |v 1| |v 2|) := le_max_left _ _
  have h1 : |v 1| ≤ max |v 0| (max |v 1| |v 2|) :=
    (le_max_left _ _).trans (le_max_right _ _)
  have h2 : |v 2| ≤ max |v 0| (max |v 1| |v 2|) :=
    (le_max_right _ _).trans (le_max_right _ _)
  apply le_antisymm
  · apply max_le
    · rw [abs_le]
      constructor
      · apply le_min (le_min ?_ ?_) ?_
        · exact le_trans (neg_le_neg h0) (neg_abs_le _)
        · exact le_trans (neg_le_neg h1) (neg_abs_le _)
        · exact le_trans (neg_le_neg h2) (neg_abs_le _)
      · exact le_trans (min_le_right _ _) ((le_abs_self _).trans h2)
    · exact max_le (max_le ((le_abs_self _).trans h0) ((le_abs_self _).trans h1))
        ((le_abs_self _).trans h2)
  · have hminle : ∀ i : Fin 3, min (min (v 0) (v 1)) (v 2) ≤ v i := by
      intro i
      fin_cases i
      · exact (min_le_left _ _).trans (min_le_left _ _)
      · exact (min_le_left _ _).trans (min_le_right _ _)
      · exact min_le_right _ _
    have hlemax : ∀ i : Fin 3, v i ≤ max (max (v 0) (v 1)) (v 2) := by
      intro i
      fin_cases i
      · exact (le_max_left _ _).trans (le_max_left _ _)
      · exact (le_max_right _ _).trans (le_max_left _ _)
      · exact le_max_right _ _
    have habs : ∀ i : Fin 3,
        |v i| ≤ max |min (min (v 0) (v 1)) (v 2)| (max (max (v 0) (v 1)) (v 2)) := by
      intro i
      rw [abs_le]
      constructor
      · calc -(max |min (min (v 0) (v 1)) (v 2)| (max (max (v 0) (v 1)) (v 2)))
            ≤ -|min (min (v 0) (v 1)) (v 2)| := neg_le_neg (le_max_left _ _)
          _ ≤ min (min (v 0) (v 1)) (v 2) := neg_abs_le _
          _ ≤ v i := hminle i
      · exact (hlemax i).trans (le_max_right _ _)
    exact max_le (habs 0) (max_le (habs 1) (habs 2))

lemma codeDist_smul (t : ℝ) (ht : 0 ≤ t) (v : Pt) :
    codeDist (fun i => t * v i) = t * codeDist v := by
  have habs : ∀ i : Fin 3, |t * v i| = t * |v i| := fun i => by
    rw [abs_mul, abs_of_nonneg ht]
  have hmax : ∀ x y : ℝ, max (t * x) (t * y) = t * max x y := fun x y => by
    rw [mul_comm t x, mul_comm t y, mul_comm t (max x y)]
    exact (max_mul_of_nonneg x y ht).symm
  rw [codeDist_eq, codeDist_eq]
  change max |t * v 0| (max |t * v 1| |t * v 2|) = _
  rw [habs 0, habs 1, habs 2, hmax, hmax]

lemma interp_mem_segment {a b : Pt} {av bv : ℝ} (h : signum av ≠ signum bv) :
    interpPoint a b av bv ∈ segment ℝ a b := by
  have hd : |bv - av| = |av| + |bv| := abs_sub_of_signum_ne h
  have hden : 0 < |bv - av| := by
    rcases signum_ne_cases h with ⟨h1, _⟩ | ⟨h1, _⟩
    · have : 0 < |av| := abs_pos.mpr (ne_of_lt h1)
      rw [hd]
      linarith [abs_nonneg bv]
    · have : 0 < |bv| := abs_pos.mpr (ne_of_lt h1)
      rw [hd]
      linarith [abs_nonneg av]
  have ht0 : 0 ≤ |av| / |bv - av| := div_nonneg (abs_nonneg _) hden.le
  have ht1 : |av| / |bv - av| ≤ 1 := by
    rw [div_le_one hden, hd]
    linarith [abs_nonneg bv]
  refine ⟨1 - |av| / |bv - av|, |av| / |bv - av|, by linarith, ht0, by ring, ?_⟩
  funext i
  simp only [Pi.add_apply, Pi.smul_apply, smul_eq_mul, interpPoint]
  ring

lemma findZero_guards {sampler : Pt → ℝ} {normalF : Pt → Pt} {res : ℝ}
    {fuel : ℕ} {a b : Pt} {av bv : ℝ} {pl : Plane}
    (h : findZero sampler normalF res fuel a av b bv = some pl) :
    a ≠ b ∧ signum av ≠ signum bv := by
  cases fuel with
  | zero => simp [findZero] at h
  | succ n =>
    rw [findZero] at h
    split_ifs at h with h1 h2 <;> exact ⟨h1, h2⟩

lemma segment_subset_of_mem {a b x y : Pt} (hx : x ∈ segment ℝ a b)
    (hy : y ∈ segment ℝ a b) : segment ℝ x y ⊆ segment ℝ a b :=
  (convex_segment a b).segment_subset hx hy

lemma findZero_p_mem_segment {sampler : Pt → ℝ} {normalF : Pt → Pt} {res : ℝ} :
    ∀ (fuel : ℕ) (a : Pt) (av : ℝ) (b : Pt) (bv : ℝ) (pl : Plane),
      findZero sampler normalF res fuel a av b bv = some pl →
      pl.p ∈ segment ℝ a b := by
  intro fuel
  induction fuel with
  | zero => intro a av b bv pl h; simp [findZero] at h
  | succ n ih =>
    intro a av b bv pl h
    rw [findZero] at h
    split_ifs at h with h1 h2 h3 h4 h5
    · obtain rfl := Option.some.inj h
      exact right_mem_segment ℝ a b
    · obtain rfl := Option.some.inj h
      exact left_mem_segment ℝ a b
    · exact segment_subset_of_mem (left_mem_segment ℝ a b)
        (interp_mem_segment h2) (ih _ _ _ _ _ h)
    · exact segment_subset_of_mem (interp_mem_segment h2)
        (right_mem_segment ℝ a b) (ih _ _ _ _ _ h)

lemma interp_sub_left (a b : Pt) (av bv : ℝ) :
    a - interpPoint a b av bv = fun i => |av| / |bv - av| * ((a - b) i) :=
  funext fun i => by
    simp only [Pi.sub_apply, interpPoint]
    ring

lemma interp_sub_right (a b : Pt) (av bv : ℝ) :
    interpPoint a b av bv - b = fun i => (1 - |av| / |bv - av|) * ((a - b) i) := by
  funext i
  simp only [Pi.sub_apply, interpPoint]
  by_cases h : |bv - av| = 0
  · rw [h, div_zero]
    ring
  · field_simp
    ring

lemma interp_ne_left {a b : Pt} {av bv : ℝ} (hab : a ≠ b)
    (ht : 0 < |av| / |bv - av|) : a ≠ interpPoint a b av bv := by
  intro heq
  obtain ⟨i0, hi0⟩ := Function.ne_iff.mp hab
  have h1 := congrFun (interp_sub_left a b av bv) i0
  rw [← heq] at h1
  simp only [Pi.sub_apply, sub_self] at h1
  rcases mul_eq_zero.mp h1.symm with h | h
  · exact absurd h ht.ne'
  · exact hi0 (by simpa [sub_eq_zero] using h)

lemma interp_ne_right {a b : Pt} {av bv : ℝ} (hab : a ≠ b)
    (ht : |av| / |bv - av| < 1) : interpPoint a b av bv ≠ b := by
  intro heq
  obtain ⟨i0, hi0⟩ := Function.ne_iff.mp hab
  have h1 := congrFun (interp_sub_right a b av bv) i0
  rw [heq] at h1
  simp only [Pi.sub_apply, sub_self] at h1
  rcases mul_eq_zero.mp h1.symm with h | h
  · have : |av| / |bv - av| = 1 := by linarith
    exact absurd this ht.ne
  · exact hi0 (by simpa [sub_eq_zero] using h)

lemma findZero_succeeds_aux (sampler : Pt → ℝ) (normalF : Pt → Pt) (res : ℝ)
    (hres : 0 < res) (a0 b0 : Pt) (M : ℝ) (hM1 : 1 ≤ M)
    (hM : ∀ x ∈ segment ℝ a0 b0, |sampler x| ≤ M) :
    ∀ k : ℕ, ∀ a b : Pt, a ∈ segment ℝ a0 b0 → b ∈ segment ℝ a0 b0 → a ≠ b →
      signum (sampler a) ≠ signum (sampler b) →
      codeDist (a - b) < PRECISION * res * ((M + PRECISION * res) / M) ^ k →
      (findZero sampler normalF res (Nat.succ k) a (sampler a) b
        (sampler b)).isSome := by
  have hPr : 0 < PRECISION * res := by
    have h05 : (0:ℝ) < PRECISION := by norm_num [PRECISION]
    exact mul_pos h05 hres
  have hM0 : (0:ℝ) < M := lt_of_lt_of_le one_pos hM1
  intro k
  induction k with
  | zero =>
    intro a b ha hb hab hsign hcd
    rw [pow_zero, mul_one] at hcd
    have hlt : min (min (codeDist (a - b)) |sampler a|) |sampler b| <
        PRECISION * res :=
      lt_of_le_of_lt ((min_le_left _ _).trans (min_le_left _ _)) hcd
    rw [findZero, if_neg hab, if_neg hsign, if_pos hlt]
    rfl
  | succ n ih =>
    intro a b ha hb hab hsign hcd
    by_cases hdist : min (min (codeDist (a - b)) |sampler a|) |sampler b| <
        PRECISION * res
    · rw [findZero, if_neg hab, if_neg hsign, if_pos hdist]
      rfl
    · push_neg at hdist
      have hcle : PRECISION * res ≤ codeDist (a - b) :=
        le_trans (le_trans hdist (min_le_left _ _)) (min_le_left _ _)
      have hale : PRECISION * res ≤ |sampler a| :=
        le_trans (le_trans hdist (min_le_left _ _)) (min_le_right _ _)
      have hble : PRECISION * res ≤ |sampler b| :=
        le_trans hdist (min_le_right _ _)
      have hdiff : |sampler b - sampler a| = |sampler a| + |sampler b| :=
        abs_sub_of_signum_ne hsign
      have hsum : (0:ℝ) < |sampler a| + |sampler b| := by linarith
      have ht : |sampler a| / |sampler b - sampler a| =
          |sampler a| / (|sampler a| + |sampler b|) := by rw [hdiff]
      have ht0 : 0 < |sampler a| / |sampler b - sampler a| := by
        rw [ht]
        exact div_pos (by linarith) hsum
      have ht1 : |sampler a| / |sampler b - sampler a| < 1 := by
        rw [ht, div_lt_one hsum]
        linarith
      have hav_le : |sampler a| ≤ M := hM a ha
      have hbv_le : |sampler b| ≤ M := hM b hb
      have hcross : |sampler a| * (PRECISION * res) ≤ M * |sampler b| :=
        mul_le_mul hav_le hble hPr.le hM0.le
      have hcross' : |sampler b| * (PRECISION * res) ≤ M * |sampler a| :=
        mul_le_mul hbv_le hale hPr.le hM0.le
      have hfac : |sampler a| / |sampler b - sampler a| ≤
          M / (M + PRECISION * res) := by
        rw [ht, div_le_div_iff hsum (by linarith)]
        nlinarith [hcross]
      have hfac1 : 1 - |sampler a| / |sampler b - sampler a| ≤
          M / (M + PRECISION * res) := by
        have h1t : 1 - |sampler a| / (|sampler a| + |sampler b|) =
            |sampler b| / (|sampler a| + |sampler b|) := by
          field_simp
        rw [ht, h1t, div_le_div_iff hsum (by linarith)]
        nlinarith [hcross']
      have hcd0 : 0 < codeDist (a - b) := lt_of_lt_of_le hPr hcle
      have hnew : M / (M + PRECISION * res) *
          (PRECISION * res * ((M + PRECISION * res) / M) ^ (n + 1)) =
          PRECISION * res * ((M + PRECISION * res) / M) ^ n := by
        rw [pow_succ]
        field_simp
        ring
      have hsub : segment ℝ a b ⊆ segment ℝ a0 b0 := segment_subset_of_mem ha hb
      have hnp0 : interpPoint a b (sampler a) (sampler b) ∈ segment ℝ a0 b0 :=
        hsub (interp_mem_segment hsign)
      have hna : a ≠ interpPoint a b (sampler a) (sampler b) :=
        interp_ne_left hab ht0
      have hnb : interpPoint a b (sampler a) (sampler b) ≠ b :=
        interp_ne_right hab ht1
      have hboundl : codeDist (a - interpPoint a b (sampler a) (sampler b)) <
          PRECISION * res * ((M + PRECISION * res) / M) ^ n := by
        rw [interp_sub_left, codeDist_smul _ ht0.le]
        calc |sampler a| / |sampler b - sampler a| * codeDist (a - b)
            ≤ M / (M + PRECISION * res) * codeDist (a - b) :=
              mul_le_mul_of_nonneg_right hfac hcd0.le
          _ < M / (M + PRECISION * res) *
              (PRECISION * res * ((M + PRECISION * res) / M) ^ (n + 1)) :=
              mul_lt_mul_of_pos_left hcd (div_pos hM0 (by linarith))
          _ = PRECISION * res * ((M + PRECISION * res) / M) ^ n := hnew
      have hboundr : codeDist (interpPoint a b (sampler a) (sampler b) - b) <
          PRECISION * res * ((M + PRECISION * res) / M) ^ n := by
        rw [interp_sub_right, codeDist_smul _ (by linarith)]
        calc (1 - |sampler a| / |sampler b - sampler a|) * codeDist (a - b)
            ≤ M / (M + PRECISION * res) * codeDist (a - b) :=
              mul_le_mul_of_nonneg_right hfac1 hcd0.le
          _ < M / (M + PRECISION * res) *
              (PRECISION * res * ((M + PRECISION * res) / M) ^ (n + 1)) :=
              mul_lt_mul_of_pos_left hcd (div_pos hM0 (by linarith))
          _ = PRECISION * res * ((M + PRECISION * res) / M) ^ n := hnew
      rw [findZero, if_neg hab, if_neg hsign, if_neg (not_lt.mpr hdist)]
      split_ifs with hbranch
      · exact ih a (interpPoint a b (sampler a) (sampler b)) ha hnp0 hna
          hbranch hboundl
      · have hb2 : signum (sampler (interpPoint a b (sampler a) (sampler b))) ≠
            signum (sampler b) := by
          rw [← not_ne_iff.mp hbranch]
          exact hsign
        exact ih (interpPoint a b (sampler a) (sampler b)) b hnp0 hb hnb
          hb2 hboundr

lemma findZero_succeeds (sampler : Pt → ℝ) (normalF : Pt → Pt) (res : ℝ)
    (hres : 0 < res) (f : Pt → ℝ) (eps : ℝ) (hf : Continuous f)
    (happrox : ∀ p : Pt, |sampler p - f p| ≤ eps * res) (a b : Pt)
    (hab : a ≠ b) (hsign : signum (sampler a) ≠ signum (sampler b)) :
    ∃ fuel, (findZero sampler normalF res fuel a (sampler a) b
      (sampler b)).isSome := by
  have hPr : 0 < PRECISION * res := by
    have h05 : (0:ℝ) < PRECISION := by norm_num [PRECISION]
    exact mul_pos h05 hres
  have hcompact : IsCompact (segment ℝ a b) := by
    rw [segment_eq_image']
    exact isCompact_Icc.image
      (continuous_const.add (continuous_id.smul continuous_const))
  obtain ⟨C, hC⟩ := hcompact.exists_bound_of_continuousOn hf.continuousOn
  have hM : ∀ x ∈ segment ℝ a b, |sampler x| ≤ max (C + eps * res) 1 := by
    intro x hx
    have h1 : |f x| ≤ C := by simpa [Real.norm_eq_abs] using hC x hx
    have h2 := happrox x
    have h3 := abs_sub_abs_le_abs_sub (sampler x) (f x)
    have : |sampler x| ≤ C + eps * res := by linarith
    exact le_trans this (le_max_left _ _)
  have hM1 : (1:ℝ) ≤ max (C + eps * res) 1 := le_max_right _ _
  have hM0 : (0:ℝ) < max (C + eps * res) 1 := lt_of_lt_of_le one_pos hM1
  have hq : 1 < (max (C + eps * res) 1 + PRECISION * res) / max (C + eps * res) 1 := by
    rw [lt_div_iff hM0]
    linarith
  obtain ⟨k, hk⟩ := pow_unbounded_of_one_lt
    (codeDist (a - b) / (PRECISION * res)) hq
  rw [div_lt_iff hPr] at hk
  refine ⟨Nat.succ k, ?_⟩
  exact findZero_succeeds_aux sampler normalF res hres a b
    (max (C + eps * res) 1) hM1 hM k a b (left_mem_segment ℝ a b)
    (right_mem_segment ℝ a b) hab hsign (by linarith [hk])

/-- C10: `find_zero`, called on distinct points `a ≠ b` whose values
`av = approx_value(a)`, `bv = approx_value(b)` are nonzero and of opposite
signs, terminates for every implementation of `approx_value` consistent
with its contract (it approximates a continuous scalar field `f` to within
`eps·res`): some finite recursion fuel makes the recursion reach the
`distance < 0.05·res` base case and return a plane. -/
theorem findZero_terminates (sampler : Pt → ℝ) (normalF : Pt → Pt) (res : ℝ)
    (hres : 0 < res) (f : Pt → ℝ) (eps : ℝ) (hf : Continuous f)
    (happrox : ∀ p : Pt, |sampler p - f p| ≤ eps * res) (a b : Pt)
    (hab : a ≠ b) (av bv : ℝ) (hav : av = sampler a) (hbv : bv = sampler b)
    (hav0 : av ≠ 0) (hbv0 : bv ≠ 0) (hsign : av * bv < 0) :
    ∃ fuel, (findZero sampler normalF res fuel a av b bv).isSome := by
  subst hav
  subst hbv
  exact findZero_succeeds sampler normalF res hres f eps hf happrox a b hab
    ((signum_ne_iff_mul_neg hav0 hbv0).mpr hsign)


theorem findZero_terminates_witness :
    ∃ fuel, (findZero wSampler wNormal 1 fuel wA (-(1/2)) wB (1/2)).isSome :=
  findZero_terminates wSampler wNormal 1 (by norm_num)
    (fun p => p 0 - 1 / 2) 0 (by continuity)
    (fun p => by simp [wSampler]) wA wB
    (fun h => by
      have h0 := congrFun h 0
      simp [wA, wB] at h0)
    (-(1/2)) (1/2) (by norm_num [wSampler, wA]) (by norm_num [wSampler, wB])
    (by norm_num) (by norm_num) (by norm_num)

/-- C5: `find_zero` on distinct points `a ≠ b` with nonzero values
`av = approx_value(a)`, `bv = approx_value(b)` (the sampler approximating a
continuous field to within `eps·res`): it returns `None` — for every fuel —
iff `av` and `bv` have the same sign; and whenever the distance measure
(`‖a−b‖` clamped to `min |av| |bv|`) is already below `0.05·res`, it
returns the endpoint whose value has the smaller absolute value as the
plane point, with the object's normal there. -/
theorem findZero_spec (sampler : Pt → ℝ) (normalF : Pt → Pt) (res : ℝ)
    (hres : 0 < res) (f : Pt → ℝ) (eps : ℝ) (hf : Continuous f)
    (happrox : ∀ p : Pt, |sampler p - f p| ≤ eps * res) (a b : Pt)
    (hab : a ≠ b) (av bv : ℝ) (hav : av = sampler a) (hbv : bv = sampler b)
    (hav0 : av ≠ 0) (hbv0 : bv ≠ 0) :
    ((∀ fuel, findZero sampler normalF res fuel a av b bv = none) ↔
      signum av = signum bv)
    ∧ (signum av ≠ signum bv →
        min (min (codeDist (a - b)) |av|) |bv| < PRECISION * res →
        ∀ fuel,
          findZero sampler normalF res (fuel + 1) a av b bv =
            some ⟨if |bv| < |av| then b else a,
              normalF (if |bv| < |av| then b else a)⟩
          ∧ (|av| < |bv| → (if |bv| < |av| then b else a) = a)
          ∧ (|bv| < |av| → (if |bv| < |av| then b else a) = b)) := by
  subst hav
  subst hbv
  constructor
  · constructor
    · intro hall
      by_contra hne
      obtain ⟨fuel, hs⟩ := findZero_succeeds sampler normalF res hres f eps hf
        happrox a b hab hne
      rw [hall fuel] at hs
      simp at hs
    · intro heq fuel
      cases fuel with
      | zero => simp [findZero]
      | succ n => rw [findZero, if_neg hab, if_pos heq]
  · intro hsign hdist fuel
    refine ⟨?_, ?_, ?_⟩
    · rw [findZero, if_neg hab, if_neg hsign, if_pos hdist]
    · intro h
      rw [if_neg (not_lt.mpr h.le)]
    · intro h
      rw [if_pos h]

theorem findZero_spec_witness :
    findZero wSampler wNormal 100 1 wA (-(1/2)) wB (1/2) =
      some ⟨if |(1/2 : ℝ)| < |(-(1/2) : ℝ)| then wB else wA,
        wNormal (if |(1/2 : ℝ)| < |(-(1/2) : ℝ)| then wB else wA)⟩ :=
  ((findZero_spec wSampler wNormal 100 (by norm_num)
    (fun p => p 0 - 1 / 2) 0 (by continuity)
    (fun p => by simp [wSampler]) wA wB
    (fun h => by
      have h0 := congrFun h 0
      simp [wA, wB] at h0)
    (-(1/2)) (1/2) (by norm_num [wSampler, wA]) (by norm_num [wSampler, wB])
    (by norm_num) (by norm_num)).2
    (by norm_num [signum])
    (by
      have hA : ∀ i : Fin 3, wA i = 0 := fun i => rfl
      have hB0 : wB 0 = 1 := by simp [wB]
      have hB1 : wB 1 = 0 := by simp [wB, Fin.ext_iff]
      have hB2 : wB 2 = 0 := by simp [wB, Fin.ext_iff]
      norm_num [codeDist, vecMin, vecMax, Pi.sub_apply, hA, hB0, hB1, hB2,
        PRECISION])
    0).1

lemma adjacentPos_eq (origin : Pt) (res : ℝ) (e : Edge) (I : Idx) :
    (fun i : Fin 3 => if (i : ℕ) = e.toNat then posOf origin res I i + res
      else posOf origin res I i) =
    posOf origin res (fun i => I i + baseUnit e i) := by
  funext i
  by_cases h : (i : ℕ) = e.toNat
  · simp only [if_pos h, posOf, baseUnit]
    push_cast
    ring
  · simp only [if_neg h, posOf, baseUnit]
    push_cast
    ring

lemma posOf_adj_ne {origin : Pt} {res : ℝ} (hres : 0 < res) {e : Edge}
    (he : e = Edge.A ∨ e = Edge.B ∨ e = Edge.C) (I : Idx) :
    posOf origin res I ≠ posOf origin res (fun i => I i + baseUnit e i) := by
  have htn : e.toNat < 3 := by
    rcases he with rfl | rfl | rfl <;> simp [Edge.toNat]
  intro heq
  have hbu : baseUnit e ⟨e.toNat, htn⟩ = 1 := by simp [baseUnit]
  have h1 := congrFun heq ⟨e.toNat, htn⟩
  simp only [posOf] at h1
  rw [hbu] at h1
  push_cast at h1
  nlinarith [h1, hres]

/-- C3: after the edge-localization phase, for a base edge `e ∈ {A,B,C}`
and index `I`, the `edge_grid` entry at `(e, I)` exists (for sufficient
recursion fuel) iff both `I` and `I + ê` carry values in `value_grid` and
those values have opposite signs; and any stored plane's point lies on the
closed segment between the two endpoint positions. -/
theorem edgeGrid_invariant (sampler : Pt → ℝ) (normalF : Pt → Pt)
    (origin : Pt) (res : ℝ) (hres : 0 < res) (f : Pt → ℝ) (eps : ℝ)
    (hf : Continuous f) (happrox : ∀ p : Pt, |sampler p - f p| ≤ eps * res)
    (vg : Grid) (hnz : ∀ J v, vg J = some v → v ≠ 0)
    (hcons : ∀ J v, vg J = some v → sampler (posOf origin res J) = v)
    (e : Edge) (he : e = Edge.A ∨ e = Edge.B ∨ e = Edge.C) (I : Idx) :
    ((∃ fuel pl, edgeEntry sampler normalF origin res vg fuel e I = some pl) ↔
      (∃ v av, vg I = some v ∧ vg (fun i => I i + baseUnit e i) = some av ∧
        v * av < 0))
    ∧ ∀ fuel pl, edgeEntry sampler normalF origin res vg fuel e I = some pl →
        pl.p ∈ segment ℝ (posOf origin res I)
          (posOf origin res (fun i => I i + baseUnit e i)) := by
  constructor
  · constructor
    · rintro ⟨fuel, pl, h⟩
      rcases hI : vg I with _ | v
      · rw [edgeEntry, hI] at h
        simp at h
      rcases hJ : vg (fun i => I i + baseUnit e i) with _ | av
      · rw [edgeEntry, hI, hJ] at h
        simp at h
      rw [edgeEntry, hI, hJ] at h
      have hg := findZero_guards h
      exact ⟨v, av, rfl, rfl,
        (signum_ne_iff_mul_neg (hnz I v hI) (hnz _ av hJ)).mp hg.2⟩
    · rintro ⟨v, av, hI, hJ, hmul⟩
      have hvz : v ≠ 0 := hnz I v hI
      have havz : av ≠ 0 := hnz _ av hJ
      have hv : sampler (posOf origin res I) = v := hcons I v hI
      have hav : sampler (posOf origin res (fun i => I i + baseUnit e i)) = av :=
        hcons _ av hJ
      have hsign : signum (sampler (posOf origin res I)) ≠
          signum (sampler (posOf origin res (fun i => I i + baseUnit e i))) := by
        rw [hv, hav]
        exact (signum_ne_iff_mul_neg hvz havz).mpr hmul
      obtain ⟨fuel, hs⟩ := findZero_succeeds sampler normalF res hres f eps hf
        happrox (posOf origin res I)
        (posOf origin res (fun i => I i + baseUnit e i))
        (posOf_adj_ne hres he I) hsign
      refine ⟨fuel, ?_⟩
      rw [edgeEntry, hI, hJ, adjacentPos_eq]
      rw [hv, hav] at hs
      exact Option.isSome_iff_exists.mp hs
  · intro fuel pl h
    rcases hI : vg I with _ | v
    · rw [edgeEntry, hI] at h
      simp at h
    rcases hJ : vg (fun i => I i + baseUnit e i) with _ | av
    · rw [edgeEntry, hI, hJ] at h
      simp at h
    rw [edgeEntry, hI, hJ, adjacentPos_eq] at h
    exact findZero_p_mem_segment _ _ _ _ _ _ h

theorem edgeGrid_invariant_witness :
    ∃ fuel pl, edgeEntry wSampler2 wNormal wA 1 wVg fuel Edge.A wI0 = some pl := by
  have hadj : (fun i : Fin 3 => wI0 i + baseUnit Edge.A i) = wI1 :=
    funext fun i => by simp [wI0, wI1, baseUnit, Edge.toNat, Fin.ext_iff]
  have hne10 : wI1 ≠ wI0 := fun h => by
    have := congrFun h 0
    simp [wI0, wI1] at this
  refine (edgeGrid_invariant wSampler2 wNormal wA 1 (by norm_num)
    (fun p => 10 * p 0 - 5) 0 (by continuity)
    (fun p => by simp [wSampler2]) wVg
    ?_ ?_ Edge.A (Or.inl rfl) wI0).1.mpr
    ⟨-5, 5, by simp [wVg], ?_, by norm_num⟩
  · intro J v h
    unfold wVg at h
    split_ifs at h with h1 h2
    · obtain rfl := Option.some.inj h
      norm_num
    · obtain rfl := Option.some.inj h
      norm_num
  · intro J v h
    unfold wVg at h
    split_ifs at h with h1 h2
    · obtain rfl := Option.some.inj h
      subst h1
      simp [wSampler2, posOf, wA, wI0]
    · obtain rfl := Option.some.inj h
      subst h2
      simp [wSampler2, posOf, wA, wI1]
      norm_num
  · rw [hadj]
    unfold wVg
    rw [if_neg hne10, if_pos rfl]

/-- C7: the pruning test of the adaptive sampler is sound.  If the field is
1-Lipschitz (with respect to Euclidean distance) and its absolute value at
a sub-octant's corner exceeds the descent threshold
`subCubeDiagonal half res = half·res·√3`, then no point of the closed
sub-cube of side `half·res` based at that corner is a zero of the field:
recording the corner value as a leaf instead of descending skips no zero
crossing. -/
theorem pruning_sound (f : Pt → ℝ)
    (hlip : ∀ x y : Pt, |f x - f y| ≤ euclDist x y)
    (c : Pt) (half : ℕ) (res : ℝ) (hres : 0 ≤ res)
    (hv : subCubeDiagonal half res < |f c|) :
    ∀ x : Pt, (∀ i : Fin 3, c i ≤ x i ∧ x i ≤ c i + (half : ℝ) * res) →
      f x ≠ 0 := by
  intro x hx h0
  have hd : euclDist c x ≤ subCubeDiagonal half res := by
    unfold euclDist subCubeDiagonal
    have hsq : ∀ i : Fin 3, (c i - x i) ^ 2 ≤ ((half : ℝ) * res) ^ 2 := by
      intro i
      have h1 := (hx i).1
      have h2 := (hx i).2
      nlinarith
    have hsum : ∑ i : Fin 3, (c i - x i) ^ 2 ≤ 3 * ((half : ℝ) * res) ^ 2 := by
      calc ∑ i : Fin 3, (c i - x i) ^ 2
          ≤ ∑ _i : Fin 3, ((half : ℝ) * res) ^ 2 :=
            Finset.sum_le_sum (fun i _ => hsq i)
        _ = 3 * ((half : ℝ) * res) ^ 2 := by
            rw [Finset.sum_const]
            simp
    calc Real.sqrt (∑ i : Fin 3, (c i - x i) ^ 2)
        ≤ Real.sqrt (3 * ((half : ℝ) * res) ^ 2) := Real.sqrt_le_sqrt hsum
      _ = (half : ℝ) * res * Real.sqrt 3 := by
          rw [show (3 : ℝ) * ((half : ℝ) * res) ^ 2 =
            ((half : ℝ) * res) ^ 2 * 3 by ring]
          rw [Real.sqrt_mul (sq_nonneg _), Real.sqrt_sq (by positivity)]
  have hl := hlip c x
  rw [h0, sub_zero] at hl
  linarith

theorem pruning_sound_witness : (fun p : Pt => p 0 + 10) wHalf ≠ 0 :=
  pruning_sound (fun p => p 0 + 10)
    (fun x y => by
      have h1 : (x 0 - y 0) ^ 2 ≤ ∑ i : Fin 3, (x i - y i) ^ 2 :=
        Finset.single_le_sum (fun (i : Fin 3) _ => sq_nonneg (x i - y i))
          (Finset.mem_univ 0)
      calc |(x 0 + 10) - (y 0 + 10)| = |x 0 - y 0| := by ring_nf
        _ = Real.sqrt ((x 0 - y 0) ^ 2) := (Real.sqrt_sq_eq_abs _).symm
        _ ≤ euclDist x y := Real.sqrt_le_sqrt h1)
    wA 1 1 (by norm_num)
    (by
      have h3 : Real.sqrt 3 < 10 := by
        rw [show (10 : ℝ) = Real.sqrt 100 by
          rw [show (100 : ℝ) = 10 ^ 2 by norm_num, Real.sqrt_sq] <;> norm_num]
        exact Real.sqrt_lt_sqrt (by norm_num) (by norm_num)
      simp only [subCubeDiagonal, wA]
      norm_num
      linarith)
    wHalf (fun i => by norm_num [wA, wHalf])

lemma foldl_grid_preserve (P : Grid → Prop)
    (step : Grid × Option Pt → Idx → Grid × Option Pt)
    (hstep : ∀ acc off, P acc.1 → P (step acc off).1) :
    ∀ (l : List Idx) (acc : Grid × Option Pt), P acc.1 →
      P ((l.foldl step acc).1) := by
  intro l
  induction l with
  | nil => intro acc h; exact h
  | cons x xs ih =>
    intro acc h
    exact ih _ (hstep _ _ h)

/-- C9: `sample_value_grid` never stores a zero in `value_grid`: starting
from a grid with no zero values (in particular the empty one), the grid
after sampling — whether it ended normally or aborted with `HitZero` —
still contains no zero value, because a sampled zero aborts before the
insert. -/
theorem value_grid_no_zero (sampler : Pt → ℝ) (res : ℝ) :
    ∀ (fuel size : ℕ) (idx : Idx) (pos : Pt) (val : ℝ) (g : Grid),
      (∀ J v, g J = some v → v ≠ 0) →
      ∀ J v, (sampleValueGrid sampler res fuel size idx pos val g).1 J = some v →
        v ≠ 0 := by
  intro fuel
  induction fuel with
  | zero =>
    intro size idx pos val g hg J v h
    rw [sampleValueGrid] at h
    exact hg J v h
  | succ n ih =>
    intro size idx pos val g hg
    rw [sampleValueGrid]
    refine foldl_grid_preserve (fun gr => ∀ J v, gr J = some v → v ≠ 0) _
      ?_ svgCorners (g, none) hg
    intro acc off hP
    rcases acc with ⟨g1, e⟩
    rcases e with _ | ep
    · dsimp only
      split_ifs with h1 h2 h3 h4 h5
      · exact hP
      · exact fun J v h => ih (size / 2) _ _ _ g1 hP J v h
      · intro J v hJ
        simp only [gridInsert] at hJ
        split_ifs at hJ with hjk
        · obtain rfl := Option.some.inj hJ
          exact h2
        · exact hP J v hJ
      · exact hP
      · exact fun J v h => ih (size / 2) _ _ _ g1 hP J v h
      · intro J v hJ
        simp only [gridInsert] at hJ
        split_ifs at hJ with hjk
        · obtain rfl := Option.some.inj hJ
          exact h4
        · exact hP J v hJ
    · exact hP

theorem value_grid_no_zero_witness :
    (sampleValueGrid wSampler 1 1 2 wI0 wA 1 (fun _ => none)).1 wI0 ≠
      some 0 :=
  fun h => value_grid_no_zero wSampler 1 1 2 wI0 wA 1 (fun _ => none)
    (fun J v hh => by simp at hh) wI0 0 h rfl

/-- C2 counterexample: the retry arm of `tesselate` does **not** clear all
four maps — after the reset, the `edge_grid` entry and the `vertex_map`
entry of this concrete state are still present. -/
theorem retryReset_keeps_maps :
    (retryReset wDmc 0).edgeGrid (Edge.A, wI0) = some wPlane ∧
    (retryReset wDmc 0).vmap (7, wI0) = some 0 := by
  constructor <;> simp [retryReset, wDmc]

/-- C2 (amended): on `HitZero`, `tesselate` clears `value_grid` and the
mesh's vertex and face lists, zeroes the `qefs` and `clamps` counters, and
decreases `origin.x` by `res/(10+U)` with `U = |u| ∈ [0,1)` the drawn
random; `edge_grid` and `vertex_map` — which are necessarily empty at that
point of any run, since errors arise only during sampling — are left
unchanged, as are `res`, `dim` and the other origin components. -/
theorem retryReset_spec (s : DmcState) (u : ℝ) (hu0 : 0 ≤ u) (hu1 : u < 1) :
    (retryReset s u).valueGrid = (fun _ => none) ∧
    (retryReset s u).meshVertices = [] ∧
    (retryReset s u).meshFaces = [] ∧
    (retryReset s u).qefs = 0 ∧
    (retryReset s u).clamps = 0 ∧
    (retryReset s u).edgeGrid = s.edgeGrid ∧
    (retryReset s u).vmap = s.vmap ∧
    (retryReset s u).res = s.res ∧
    (retryReset s u).dim = s.dim ∧
    (retryReset s u).origin 0 = s.origin 0 - s.res / (10 + u) ∧
    (∀ i : Fin 3, i ≠ 0 → (retryReset s u).origin i = s.origin i) ∧
    (0 < s.res → s.res / 11 < s.res / (10 + u) ∧
      s.res / (10 + u) ≤ s.res / 10) := by
  refine ⟨rfl, rfl, rfl, rfl, rfl, rfl, rfl, rfl, rfl, ?_, ?_, ?_⟩
  · simp [retryReset, abs_of_nonneg hu0]
  · intro i hi
    simp [retryReset, Function.update_noteq hi]
  · intro hres
    constructor
    · exact div_lt_div_of_pos_left hres (by linarith) (by linarith)
    · exact div_le_div_of_nonneg_left hres.le (by norm_num) (by linarith)

theorem retryReset_spec_witness :
    (retryReset wDmc 0).edgeGrid = wDmc.edgeGrid ∧
    (retryReset wDmc 0).origin 0 = wDmc.origin 0 - wDmc.res / (10 + 0) :=
  ⟨(retryReset_spec wDmc 0 (by norm_num) (by norm_num)).2.2.2.2.2.1,
   (retryReset_spec wDmc 0 (by norm_num) (by norm_num)).2.2.2.2.2.2.2.2.2.1⟩

lemma foldl_add_eq_sum (l : List Plane) (i : Fin 3) :
    l.foldl (fun s pl => s + pl.p i) 0 = (l.map (fun pl => pl.p i)).sum := by
  have hgen : ∀ (l : List Plane) (init : ℝ),
      l.foldl (fun s pl => s + pl.p i) init =
        init + (l.map (fun pl => pl.p i)).sum := by
    intro l
    induction l with
    | nil => intro init; simp
    | cons x xs ih =>
      intro init
      simp [ih]
      ring
  simpa using hgen l 0

/-- C6: `compute_cell_point` returns the QEF solution exactly when each
component of `q − P(I)` lies strictly in `(0, res)` (and then increments
the `qefs` counter); otherwise it returns the arithmetic mean of the
collected tangent planes' `p` points (and increments the `clamps`
counter). -/
theorem computeCellPoint_spec (ctx : QuadCtx) (st : QState) (edgeSet : ℕ)
    (idx : Idx) (planes : List Plane)
    (hplanes : (bitsList edgeSet).mapM
      (fun b => (Edge.fromUsize b).bind
        fun e => getEdgeTangentPlane ctx.eg e idx) = some planes) :
    (isInCell ctx.origin ctx.res idx (ctx.qefSolve planes) →
      computeCellPoint ctx st edgeSet idx =
        some (ctx.qefSolve planes, { st with qefs := st.qefs + 1 }))
    ∧ (¬ isInCell ctx.origin ctx.res idx (ctx.qefSolve planes) →
      computeCellPoint ctx st edgeSet idx =
        some ((fun i => (planes.map (fun pl => pl.p i)).sum /
            (planes.length : ℝ)),
          { st with clamps := st.clamps + 1 })) := by
  have hmean : (fun i => planes.foldl (fun s pl => s + pl.p i) 0 /
      (planes.length : ℝ)) =
      fun i => (planes.map (fun pl => pl.p i)).sum / (planes.length : ℝ) :=
    funext fun i => by rw [foldl_add_eq_sum]
  constructor
  · intro hin
    rw [computeCellPoint, hplanes]
    simp only [if_pos hin]
  · intro hout
    rw [computeCellPoint, hplanes]
    simp only [if_neg hout]
    rw [hmean]

lemma gce_wCtx : getConnectedEdges wCtx.cellConfigs Edge.A 1 = some 7 := by
  decide

lemma wCtx_planes :
    (bitsList 7).mapM (fun b => (Edge.fromUsize b).bind
      fun e => getEdgeTangentPlane wCtx.eg e wI0) =
      some [wPlane, wPlane, wPlane] := by
  have hb : bitsList 7 = [0, 1, 2] := by decide
  have hoA : offsetIdx wI0 (EDGE_OFFSET Edge.A) = wI0 := by decide
  have hoB : offsetIdx wI0 (EDGE_OFFSET Edge.B) = wI0 := by decide
  have hoC : offsetIdx wI0 (EDGE_OFFSET Edge.C) = wI0 := by decide
  rw [hb]
  simp [List.mapM, List.mapM.loop, Edge.fromUsize, getEdgeTangentPlane,
    wCtx, hoA, hoB, hoC]

lemma bitset_wCtx : bitsetForCell wVg wI0 = 1 := by
  have e0 : offsetIdx wI0 ![0, 0, 0] = wI0 := by decide
  have e1 : offsetIdx wI0 ![1, 0, 0] = wI1 := by decide
  have e2 : offsetIdx wI0 ![0, 1, 0] ≠ wI0 := by decide
  have e2' : offsetIdx wI0 ![0, 1, 0] ≠ wI1 := by decide
  have e3 : offsetIdx wI0 ![1, 1, 0] ≠ wI0 := by decide
  have e3' : offsetIdx wI0 ![1, 1, 0] ≠ wI1 := by decide
  have e4 : offsetIdx wI0 ![0, 0, 1] ≠ wI0 := by decide
  have e4' : offsetIdx wI0 ![0, 0, 1] ≠ wI1 := by decide
  have e5 : offsetIdx wI0 ![1, 0, 1] ≠ wI0 := by decide
  have e5' : offsetIdx wI0 ![1, 0, 1] ≠ wI1 := by decide
  have e6 : offsetIdx wI0 ![0, 1, 1] ≠ wI0 := by decide
  have e6' : offsetIdx wI0 ![0, 1, 1] ≠ wI1 := by decide
  have e7 : offsetIdx wI0 ![1, 1, 1] ≠ wI0 := by decide
  have e7' : offsetIdx wI0 ![1, 1, 1] ≠ wI1 := by decide
  have hne : wI1 ≠ wI0 := by decide
  unfold bitsetForCell cellCorners svgCorners
  norm_num [List.enum, List.enumFrom, wVg, e0, e1, e2, e2', e3, e3', e4, e4',
    e5, e5', e6, e6', e7, e7', hne]
  decide

lemma isInCell_wHalf : isInCell wCtx.origin wCtx.res wI0 wHalf := by
  intro i
  norm_num [wCtx, wHalf, wA, wI0]

theorem computeCellPoint_spec_witness :
    computeCellPoint wCtx wSt0 7 wI0 = some (wHalf, { wSt0 with qefs := 1 }) :=
  (computeCellPoint_spec wCtx wSt0 7 wI0 [wPlane, wPlane, wPlane]
    wCtx_planes).1 isInCell_wHalf

lemma lookup_wCtx_first : lookupCellPoint wCtx wSt0 Edge.A wI0 = some (0, wSt1) := by
  rw [lookupCellPoint, show bitsetForCell wCtx.vg wI0 = 1 from bitset_wCtx,
    gce_wCtx]
  simp only [wSt0]
  rw [computeCellPoint, wCtx_planes]
  dsimp only
  split_ifs with h
  · rfl
  · exact absurd isInCell_wHalf h

lemma lookup_wCtx_second : lookupCellPoint wCtx wSt1 Edge.A wI0 = some (1, wSt2) := by
  rw [lookupCellPoint, show bitsetForCell wCtx.vg wI0 = 1 from bitset_wCtx,
    gce_wCtx]
  simp only [wSt1]
  rw [computeCellPoint, wCtx_planes]
  dsimp only
  split_ifs with h
  · rfl
  · exact absurd isInCell_wHalf h

/-- C1: the code at the failing input.  Two successive `lookup_cell_point`
calls resolving to the same `(edge_set, idx)` pair each append a fresh
vertex to the mesh and return different ids, and `vertex_map` is never
written (the computed id is not recorded), contradicting the claimed
memoization invariant. -/
theorem lookupCellPoint_no_memoization :
    lookupCellPoint wCtx wSt0 Edge.A wI0 = some (0, wSt1) ∧
    lookupCellPoint wCtx wSt1 Edge.A wI0 = some (1, wSt2) ∧
    wSt1.vmap = wSt0.vmap ∧
    wSt2.meshVertices.length = 2 :=
  ⟨lookup_wCtx_first, lookup_wCtx_second, rfl, rfl⟩

lemma wVg_at_wI0 : wVg wI0 = some (-5) := by
  simp [wVg]

lemma wVg_at_adj : wVg (fun i => wI0 i + baseUnit Edge.A i) = some 5 := by
  have hadj : (fun i => wI0 i + baseUnit Edge.A i) = wI1 := by decide
  have hne : wI1 ≠ wI0 := by decide
  rw [hadj]
  simp [wVg, hne]

lemma wSampler2_at_wI0 : wSampler2 (posOf wA 1 wI0) = -5 := by
  norm_num [wSampler2, posOf, wA, wI0]

lemma wSampler2_at_adj :
    wSampler2 (posOf wA 1 (fun i => wI0 i + baseUnit Edge.A i)) = 5 := by
  have hadj : (fun i => wI0 i + baseUnit Edge.A i) = wI1 := by decide
  rw [hadj]
  norm_num [wSampler2, posOf, wA, wI1]

/-- C4: the code at the failing input.  The boundary edge key
`(A, (0,0,0))` — whose index has zero components — genuinely arises during
edge localization from the value grid `{(0,0,0) ↦ −5, (1,0,0) ↦ 5}`, yet
`compute_quad` on that key fails (the `idx − EDGE_OFFSET` computation for
quad edge `G` underflows the `usize` subtraction) instead of skipping the
edge or emitting it consistently. -/
theorem computeQuad_boundary_failure :
    (∃ fuel pl, edgeEntry wSampler2 wNormal wA 1 wVg fuel Edge.A wI0 = some pl)
    ∧ computeQuad wCtx wSt0 Edge.A wI0 = none := by
  constructor
  · have hsign : signum (wSampler2 (posOf wA 1 wI0)) ≠
        signum (wSampler2 (posOf wA 1 (fun i => wI0 i + baseUnit Edge.A i))) := by
      rw [wSampler2_at_wI0, wSampler2_at_adj]
      norm_num [signum]
    obtain ⟨fuel, hs⟩ := findZero_succeeds wSampler2 wNormal 1 (by norm_num)
      (fun p => 10 * p 0 - 5) 0 (by continuity) (fun p => by simp [wSampler2])
      (posOf wA 1 wI0) (posOf wA 1 (fun i => wI0 i + baseUnit Edge.A i))
      (posOf_adj_ne (by norm_num) (Or.inl rfl) wI0) hsign
    refine ⟨fuel, ?_⟩
    rw [edgeEntry, wVg_at_wI0, wVg_at_adj, adjacentPos_eq]
    rw [wSampler2_at_wI0, wSampler2_at_adj] at hs
    exact Option.isSome_iff_exists.mp hs
  · have hnegA : negOffset wI0 (EDGE_OFFSET Edge.A) = some wI0 := by
      have hcond : ∀ i : Fin 3, EDGE_OFFSET Edge.A i ≤ wI0 i := by
        intro i
        fin_cases i <;> simp [EDGE_OFFSET, wI0]
      rw [negOffset, if_pos hcond]
      congr 1
      funext i
      fin_cases i <;> simp [wI0, EDGE_OFFSET]
    have hnegG : negOffset wI0 (EDGE_OFFSET Edge.G) = none := by
      have hcond : ¬ ∀ i : Fin 3, EDGE_OFFSET Edge.G i ≤ wI0 i := by
        intro h
        have h2 := h 2
        simp [EDGE_OFFSET, wI0] at h2
      rw [negOffset, if_neg hcond]
    have hfold : List.foldlM
        (fun acc qe =>
          match negOffset wI0 (EDGE_OFFSET qe) with
          | none => none
          | some cell =>
            match lookupCellPoint wCtx acc.2 qe cell with
            | none => none
            | some (pid, st') => some (acc.1 ++ [pid], st'))
        (([] : List ℕ), wSt0) [Edge.A, Edge.G, Edge.J, Edge.D] =
          (none : Option (List ℕ × QState)) := by
      rw [List.foldlM_cons, hnegA]
      dsimp only
      rw [lookup_wCtx_first]
      simp only [Option.pure_def, Option.bind_eq_bind, Option.some_bind]
      rw [List.foldlM_cons, hnegG]
      rfl
    rw [computeQuad]
    simp only [QUADS]
    rw [hfold]

/-- C8 counterexample: with the same four looked-up cell points `0,1,2,3`,
reversing the sign of the stored value makes `compute_quad` emit the
triangles `(3,2,1)` and `(1,0,3)` — the quad is re-triangulated along the
other diagonal — and neither of them is a winding reversal (up to cyclic
rotation) of either originally emitted triangle, so the output is not "the
same triangles with reversed winding". -/
theorem computeQuad_orientation_counterexample :
    emitFaces (some 1) [0, 1, 2, 3] [] = some [(0, 1, 2), (2, 3, 0)] ∧
    emitFaces (some (-1)) [0, 1, 2, 3] [] = some [(3, 2, 1), (1, 0, 3)] ∧
    ¬ (∀ t ∈ [(3, 2, 1), (1, 0, 3)], ∃ u ∈ [(0, 1, 2), (2, 3, 0)],
        sameTri (revTri u) t) := by
  refine ⟨?_, ?_, ?_⟩
  · rw [emitFaces]
    norm_num
  · rw [emitFaces]
    norm_num
  · decide

/-- C8 (amended): in `compute_quad`, a negative `value_grid[idx]` reverses
the four looked-up cell points before the two triangles are emitted — and
only then.  With points `p0..p3` the positive-value quad is emitted as
`(p0,p1,p2)`, `(p2,p3,p0)` while the negated-value quad is emitted as
`(p3,p2,p1)`, `(p1,p0,p3)`: the same quad with reversed orientation, but
triangulated along its other diagonal, not the per-triangle winding
reversals `(p2,p1,p0)`, `(p0,p3,p2)`. -/
theorem emitFaces_orientation (p0 p1 p2 p3 : ℕ) (faces : List (ℕ × ℕ × ℕ))
    (v : ℝ) (hv : 0 < v) :
    emitFaces (some v) [p0, p1, p2, p3] faces =
      some (faces ++ [(p0, p1, p2), (p2, p3, p0)]) ∧
    emitFaces (some (-v)) [p0, p1, p2, p3] faces =
      some (faces ++ [(p3, p2, p1), (p1, p0, p3)]) ∧
    emitFaces none [p0, p1, p2, p3] faces =
      some (faces ++ [(p0, p1, p2), (p2, p3, p0)]) := by
  have hrev : ([p0, p1, p2, p3] : List ℕ).reverse = [p3, p2, p1, p0] := by
    simp
  refine ⟨?_, ?_, rfl⟩
  · rw [emitFaces]
    rw [if_neg (not_lt.mpr hv.le)]
  · rw [emitFaces]
    rw [if_pos (by linarith : -v < 0), hrev]

theorem emitFaces_orientation_witness :
    emitFaces (some (1 : ℝ)) [0, 1, 2, 3] [] = some [(0, 1, 2), (2, 3, 0)] ∧
    emitFaces (some (-(1 : ℝ))) [0, 1, 2, 3] [] = some [(3, 2, 1), (1, 0, 3)] ∧
    emitFaces none [0, 1, 2, 3] [] = some [(0, 1, 2), (2, 3, 0)] :=
  emitFaces_orientation 0 1 2 3 [] 1 (by norm_num)
